import Mathlib

/-!
Verification of the sbvc_lib version-control engine (`src/lib.rs`).

Byte buffers are modelled as `List Nat`.  The edit-script data model
(`Deletion`, `Insertion`, `Difference`) mirrors the `wgdiff` types used by
the source (`Deletion { start, end }`, `OwnedInsertion { start, data }`,
`OwnedDifference { deletions, insertions }`); the field `stop` stands for
the source field `end`, which is a reserved word in Lean.

The `wgdiff` crate itself (the generic sequence diff and the patch
applier) is an external dependency whose code is not part of this
repository; those two definitions are modelled from the specification
(sections 4.1 and 4.2) and are marked as such.  Everything else is
translated from `src/lib.rs` and `src/tests/integration.rs`.
-/

/-- Mirrors wgdiff `Deletion { start, end }`: a half-open range
`[start, stop)` in the coordinate space of the unpatched base buffer. -/
structure Deletion where
  start : Nat
  stop : Nat
deriving DecidableEq, Repr

/-- Mirrors wgdiff `OwnedInsertion { start, data }`: `data` is spliced in
immediately before the base byte at offset `start`. -/
structure Insertion where
  start : Nat
  data : List Nat
deriving DecidableEq, Repr

/-- Mirrors wgdiff `OwnedDifference<u8>`: ordered deletions plus ordered
insertions, all offsets relative to the unpatched base buffer. -/
structure Difference where
  deletions : List Deletion
  insertions : List Insertion
deriving DecidableEq, Repr

/-- Concatenated payloads of every insertion whose `start` equals `pos`. -/
def insAt (ins : List Insertion) (pos : Nat) : List Nat :=
  ((ins.filter (fun i => i.start = pos)).map (fun i => i.data)).flatten

/-- Whether byte index `pos` of the base buffer falls inside one of the
deletion ranges. -/
def isDeleted (dels : List Deletion) (pos : Nat) : Bool :=
  dels.any (fun d => d.start ≤ pos && pos < d.stop)

/-- Left-to-right pass of the patch applier: `pos` is the base-coordinate
index of the head of the remaining buffer. -/
def patchCore (dels : List Deletion) (ins : List Insertion) :
    Nat → List Nat → List Nat
  | _, [] => []
  | pos, x :: xs =>
    insAt ins pos ++ (if isDeleted dels pos then [] else [x])
      ++ patchCore dels ins (pos + 1) xs

/-- Modelled from the spec: the wgdiff patch applier (spec section 4.2),
the crate code being external to this repository.  Scanning `base` left to
right, every byte whose index falls inside a deletion range is dropped and
every insertion payload is spliced in immediately before the base byte at
its `start` offset; a payload whose `start` equals `base.length` is
appended at the end. -/
def patch (base : List Nat) (d : Difference) : List Nat :=
  patchCore d.deletions d.insertions 0 base ++ insAt d.insertions base.length

/-- Length of the longest common prefix of two lists. -/
def commonPrefixLen [DecidableEq α] : List α → List α → Nat
  | x :: xs, y :: ys => if x = y then commonPrefixLen xs ys + 1 else 0
  | _, _ => 0

/-- Modelled from the spec: the generic minimal-edit-script sequence diff
of the wgdiff crate (spec section 4.1 step 3), the crate code being
external to this repository.  Called as `new.diff(&old)` in the source;
here the base sequence `old` is the first argument.  The common prefix and
common suffix are trimmed and the changed middle is emitted as one
deletion range and one insertion, both in `old`-index space, insertion
payloads carrying the inserted elements of `new` verbatim. -/
def seqDiff [DecidableEq α] (old new : List α) :
    List Deletion × List (Nat × List α) :=
  let p := commonPrefixLen old new
  let u := old.drop p
  let v := new.drop p
  let s := commonPrefixLen u.reverse v.reverse
  let m := u.length - s
  let mi := v.take (v.length - s)
  (if m = 0 then [] else [⟨p, p + m⟩],
   if mi = [] then [] else [(p, mi)])

/-- Partition of a buffer into contiguous chunks of `c` elements, the last
chunk possibly shorter; mirrors the Rust slice method `chunks` used by
`Version::commit` (always called with `c ≥ 1`). -/
def chunksL (c : Nat) : List α → List (List α)
  | [] => []
  | x :: xs => (x :: xs.take (c - 1)) :: chunksL c (xs.drop (c - 1))
termination_by l => l.length
decreasing_by
  simp only [List.length_drop, List.length_cons]
  omega

/-- Chunk size chosen by `Version::commit`:
`(old.len().min(new.len()) / 1_000).max(1)`. -/
def chunkSize (oldLen newLen : Nat) : Nat :=
  max (min oldLen newLen / 1000) 1

/-- Byte-level difference computed by `Version::commit`
(src/lib.rs lines 465 to 494): both buffers are cut into `chunkSize`
chunks, the generic sequence diff runs over the chunk sequences, then
chunk-index deletions are expanded to byte ranges
(`start*c` up to `start*c` plus the total length of the deleted chunks of
`old`) and chunk-index insertions are expanded to byte offset `start*c`
with the inserted chunks flattened into the literal payload. -/
def commitDiff (old new : List Nat) : Difference :=
  let c := chunkSize old.length new.length
  let oc := chunksL c old
  let nc := chunksL c new
  let del := (seqDiff oc nc).1
  let ins := (seqDiff oc nc).2
  { deletions :=
      del.map (fun d =>
        ⟨d.start * c,
         d.start * c + ((oc.drop d.start).take (d.stop - d.start)).flatten.length⟩)
    insertions :=
      ins.map (fun i => ⟨i.1 * c, i.2.flatten⟩) }

/-- Root label used by `Database::new` for the initial version. -/
def INIT_VERSION_NAME : String := "init"

/-- Default label given by `Version::commit` to a new version. -/
def DEFAULT_VERSION_NAME : String := "unnamed"

/-- In-memory version record, mirroring `VersionInfo { id, base, name,
date, difference, children, database }`.  The weak parent pointer `base`
becomes an `Option Version` (upgrade failure = `none`); the weak database
back-reference carries no content relevant to the verified claims and is
omitted. -/
inductive Version where
  | mk (id : Nat) (name : String) (date : String) (difference : Difference)
      (base : Option Version) (children : List Version)

/-- Field accessor for the version id. -/
def Version.id : Version → Nat
  | .mk i _ _ _ _ _ => i

/-- Field accessor for the version name. -/
def Version.name : Version → String
  | .mk _ n _ _ _ _ => n

/-- Field accessor for the creation date. -/
def Version.date : Version → String
  | .mk _ _ d _ _ _ => d

/-- Field accessor for the stored difference. -/
def Version.difference : Version → Difference
  | .mk _ _ _ df _ _ => df

/-- Field accessor for the parent back-reference. -/
def Version.base : Version → Option Version
  | .mk _ _ _ _ b _ => b

/-- Field accessor for the children list. -/
def Version.children : Version → List Version
  | .mk _ _ _ _ _ cs => cs

/-- Translation of `Version::data` (src/lib.rs lines 313 to 326): if the
parent back-reference upgrades, recursively reconstruct the parent content
and apply the stored difference to it; otherwise (the root) return the
empty buffer.  Nothing is cached: each call recomputes the whole chain. -/
def Version.data : Version → List Nat
  | .mk _ _ _ _ none _ => []
  | .mk _ _ _ df (some b) _ => patch (Version.data b) df

/-- Modelled from the spec: the recursive content definition of section
4.3, `content(root) = []` and `content(r) =
patch(content(parent(r)), delta(r))` for non-root `r`; stated separately
from `Version.data` so that the two can be compared. -/
def contentSpec : Version → List Nat
  | .mk _ _ _ _ none _ => []
  | .mk _ _ _ df (some b) _ => patch (contentSpec b) df

/-- Translation of the accessor `Version::deletions`
(src/lib.rs lines 578 to 581): `difference.deletions.len()`. -/
def Version.deletions (v : Version) : Nat :=
  v.difference.deletions.length

/-- Translation of the accessor `Version::insertions`
(src/lib.rs lines 583 to 586): `difference.insertions.len()`. -/
def Version.insertions (v : Version) : Nat :=
  v.difference.insertions.length

/-- Total number of bytes covered by the deletion ranges of a difference
(what `Version::deletions` would return if it counted bytes; stated for
contrast with the entry count the accessor actually returns). -/
def deletedByteCount (d : Difference) : Nat :=
  (d.deletions.map (fun x => x.stop - x.start)).sum

/-- Total number of payload bytes of the insertions of a difference
(what `Version::insertions` would return if it counted bytes). -/
def insertedByteCount (d : Difference) : Nat :=
  (d.insertions.map (fun i => i.data.length)).sum

/-- One persisted row of the `versions` table: `id`, nullable parent id
`bid`, `name`, `date`. -/
structure VRow where
  id : Nat
  bid : Option Nat
  name : String
  date : String
deriving DecidableEq, Repr

/-- Persisted repository state: the three SQLite tables of
`Database::new`, plus the id the next `INSERT INTO versions ... RETURNING
id` will allocate. -/
structure Db where
  versions : List VRow
  deletions : List (Nat × Nat × Nat)
  insertions : List (Nat × Nat × List Nat)
  nextId : Nat
deriving DecidableEq, Repr

/-- Failure kinds of `Version::commit`: a failing SQL statement or a
failing tracked-file read. -/
inductive CommitErr where
  | sqlxErr
  | fileErr
deriving DecidableEq, Repr

/-- Environment of one `Version::commit` call: whether the version-row
INSERT succeeds, the tracked-file read result (`none` = read error), the
index at which the deletions-row loop fails (`none` = no failure),
likewise for the insertions-row loop, and the timestamp. -/
structure CommitEnv where
  versionInsertOk : Bool
  fileBytes : Option (List Nat)
  delFailAt : Option Nat
  insFailAt : Option Nat
  now : String
deriving Repr

/-- Observable outcome of one `Version::commit` call: the repository
state, the child pushed into the children list of the committed-on node
(`none` when nothing was attached), and the returned error, if any. -/
structure CommitOut where
  db : Db
  attached : Option Version
  err : Option CommitErr

/-- Translation of `Version::commit` (src/lib.rs lines 443 to 544).
Step order as in the source: the version-row INSERT is joined with the
`data()` reconstruction (both complete first; a failed INSERT leaves no
row and returns early); then the tracked file is read (on failure the
version row is already persisted); then the difference is computed via
`commitDiff`; then the deletions-row loop and the insertions-row loop are
joined (each loop runs until its own first failure, so rows inserted
before a failure remain); only when everything succeeded is the new child
pushed into the in-memory children list. -/
def Version.commit (v : Version) (db : Db) (env : CommitEnv) : CommitOut :=
  if env.versionInsertOk = false then ⟨db, none, some .sqlxErr⟩
  else
    let id := db.nextId
    let db1 : Db := { db with
      versions := db.versions ++ [⟨id, some v.id, DEFAULT_VERSION_NAME, env.now⟩]
      nextId := id + 1 }
    match env.fileBytes with
    | none => ⟨db1, none, some .fileErr⟩
    | some newBytes =>
      let dfc := commitDiff v.data newBytes
      let dRows := dfc.deletions
      let iRows := dfc.insertions
      let dIns := match env.delFailAt with
        | none => dRows
        | some k => dRows.take k
      let iIns := match env.insFailAt with
        | none => iRows
        | some k => iRows.take k
      let db2 : Db := { db1 with
        deletions := db1.deletions ++ dIns.map (fun x => (id, x.start, x.stop))
        insertions := db1.insertions ++ iIns.map (fun x => (id, x.start, x.data)) }
      let failD := match env.delFailAt with
        | none => false
        | some k => decide (k < dRows.length)
      let failI := match env.insFailAt with
        | none => false
        | some k => decide (k < iRows.length)
      if failD || failI then ⟨db2, none, some .sqlxErr⟩
      else ⟨db2,
        some (.mk id DEFAULT_VERSION_NAME env.now dfc (some v) []),
        none⟩

/-- Name state of one version: the persisted name and the in-memory name. -/
structure NameState where
  dbName : String
  memName : String
deriving DecidableEq, Repr

/-- Failure of the UPDATE statement issued by `Version::rename`. -/
inductive DbErr where
  | updateFailed
deriving DecidableEq, Repr

/-- The `UPDATE versions SET name = ?` statement of `Version::rename`:
succeeds and persists the name, or fails leaving the row unchanged. -/
def updateNameDb (ok : Bool) (n : String) (st : NameState) :
    Option NameState :=
  if ok then some { st with dbName := n } else none

/-- The in-memory mutation `self.0.write().await.name = name` of
`Version::rename`. -/
def setNameMem (n : String) (st : NameState) : NameState :=
  { st with memName := n }

/-- Translation of `Version::rename` (src/lib.rs lines 419 to 433) over
the name state of one version: first the UPDATE statement; only if it
succeeded is the in-memory name mutated, otherwise the operator `?`
returns the error with the memory untouched. -/
def Version.rename (ok : Bool) (n : String) (st : NameState) :
    NameState × Option DbErr :=
  match updateNameDb ok n st with
  | none => (st, some .updateFailed)
  | some st1 => (setNameMem n st1, none)

/-- Outcome of one `Version::rollback` call: whether it returned Ok, and
the tracked-file bytes afterwards. -/
structure RollbackOut where
  ok : Bool
  file : List Nat
deriving DecidableEq, Repr

/-- Translation of `Version::rollback` (src/lib.rs lines 403 to 411):
`File::create(&path)?.write(&data)?`.  `File::create` truncates the
tracked file; the single `io::Write::write` call may accept only a prefix
of the buffer (`written` bytes, clamped to the buffer length) and the
source ignores the returned count — it calls `write`, not `write_all` —
then returns Ok. -/
def Version.rollback (content : List Nat) (written : Nat) : RollbackOut :=
  ⟨true, content.take written⟩

/-- Translation of the load path of `Version::new`
(src/lib.rs lines 220 to 292) over the persisted version rows.  Result
`none` models a panic: the linking loop indexes `map[bid]`, which panics
when a parent id resolves to no row, and the final
`root.upgrade().unwrap()` panics when no row has a null `bid`.  On
success the root id is returned (the last null-`bid` row in iteration
order). -/
def loadTree (rows : List VRow) : Option Nat :=
  if rows.all (fun r =>
      match r.bid with
      | none => true
      | some b => rows.any (fun q => q.id = b)) then
    ((rows.filter (fun r => r.bid.isNone)).getLast?).map (fun r => r.id)
  else
    none

/-- Whether every non-null parent id among the persisted rows resolves to
some row (the condition under which the linking loop of `Version::new`
does not panic at `map[bid]`). -/
def parentsResolve (rows : List VRow) : Bool :=
  rows.all (fun r =>
    match r.bid with
    | none => true
    | some b => rows.any (fun q => q.id = b))

/-- Whether some persisted row has a null parent id (the condition under
which `root.upgrade().unwrap()` in `Version::new` does not panic). -/
def hasRootRow (rows : List VRow) : Bool :=
  rows.any (fun r => r.bid.isNone)

/-- Repository and tree events emitted by `Version::delete`: the three
DELETE statements of `delete_private` for a given version id, and the
removal of the node from the children list of its parent. -/
inductive Ev where
  | delDels (id : Nat)
  | delIns (id : Nat)
  | delVer (id : Nat)
  | detach (id : Nat)
deriving DecidableEq, Repr

/-- Nondeterministic interleaving of two event sequences, the order
within each sequence preserved; models two futures driven concurrently by
a `join!`. -/
inductive Interleave : List Ev → List Ev → List Ev → Prop where
  | nil : Interleave [] [] []
  | left {x xs ys zs} : Interleave xs ys zs → Interleave (x :: xs) ys (x :: zs)
  | right {y xs ys zs} : Interleave xs ys zs → Interleave xs (y :: ys) (y :: zs)

/-- Event traces of `Version::delete_private` (src/lib.rs lines 359 to
395) run sequentially over a forest of nodes.  For one node, the
sequential deletion of its children (the `for` loop of the `children`
future), its deletions-table DELETE and its insertions-table DELETE are
all driven by one `join!`, so any interleaving of the three can occur;
the versions-table DELETE of the node is awaited only after the join
completes, so it is always last. -/
inductive ForestTr : List Version → List Ev → Prop where
  | nil : ForestTr [] []
  | cons {v : Version} {vs : List Version} {tc ab pre rest : List Ev} :
      ForestTr (Version.children v) tc →
      Interleave tc [Ev.delDels (Version.id v)] ab →
      Interleave ab [Ev.delIns (Version.id v)] pre →
      ForestTr vs rest →
      ForestTr (v :: vs) (pre ++ Ev.delVer (Version.id v) :: rest)

/-- Event traces of `delete_private` on a single node. -/
def DelPrivTr (v : Version) (tr : List Ev) : Prop :=
  ForestTr [v] tr

/-- Event traces of `Version::delete` (src/lib.rs lines 334 to 357): the
detach of the node from the children list of its parent runs only when
the parent back-reference upgrades, and it is joined concurrently with
`delete_private`, so it may land anywhere in the trace.  On the root
(no parent) no detach happens at all. -/
def DeleteTr (v : Version) (tr : List Ev) : Prop :=
  match v.base with
  | none => DelPrivTr v tr
  | some _ => ∃ tp, DelPrivTr v tp ∧ Interleave [Ev.detach v.id] tp tr

mutual

/-- Ids of every node of the subtree rooted at a version, the node
itself first. -/
def subtreeIds : Version → List Nat
  | .mk i _ _ _ _ cs => i :: subtreeIdsL cs

/-- Ids of every node of a forest of subtrees. -/
def subtreeIdsL : List Version → List Nat
  | [] => []
  | v :: vs => subtreeIds v ++ subtreeIdsL vs

end

mutual

/-- All pairs `(d, a)` such that `a` is a node of the given subtree and
`d` is a strict descendant of `a`. -/
def belowPairs : Version → List (Nat × Nat)
  | .mk i _ _ _ _ cs => (subtreeIdsL cs).map (fun d => (d, i)) ++ belowPairsL cs

/-- All descendant-ancestor pairs of a forest of subtrees. -/
def belowPairsL : List Version → List (Nat × Nat)
  | [] => []
  | v :: vs => belowPairs v ++ belowPairsL vs

end

/-- Example root version: no parent, empty difference. -/
def exRoot : Version :=
  .mk 0 INIT_VERSION_NAME "t0" ⟨[], []⟩ none []

/-- Example leaf version with id 2, used as a child of `exA`. -/
def exB : Version :=
  .mk 2 DEFAULT_VERSION_NAME "t2" ⟨[], []⟩ none []

/-- Example non-root version with id 1: parent `exRoot`, one child
`exB`. -/
def exA : Version :=
  .mk 1 DEFAULT_VERSION_NAME "t1" ⟨[], []⟩ (some exRoot) [exB]

/-- A concrete `delete_private` trace of `exRoot`. -/
def tr1 : List Ev :=
  [.delDels 0, .delIns 0, .delVer 0]

/-- A concrete `delete_private` trace of `exA`: the delta-row DELETEs of
node 1 land before every event of its child (node 2). -/
def tp0 : List Ev :=
  [.delDels 1, .delIns 1, .delDels 2, .delIns 2, .delVer 2, .delVer 1]

/-- A concrete `Version::delete` trace of `exA`: the in-memory detach
lands first, before any repository deletion. -/
def tr0 : List Ev :=
  Ev.detach 1 :: tp0

/-- Repository state right after `Database::new` on a fresh file: one
root row, no delta rows. -/
def db0 : Db :=
  ⟨[⟨0, none, INIT_VERSION_NAME, "t0"⟩], [], [], 1⟩

/-- Commit environment in which the version-row INSERT succeeds and then
the tracked-file read fails. -/
def envReadFail : CommitEnv :=
  ⟨true, none, none, none, "t1"⟩

/-- Example version whose content is the single byte 88 (the letter X):
child of `exRoot` with an insertion of `[88]` at offset 0. -/
def vX : Version :=
  .mk 3 "A" "t3" ⟨[], [⟨0, [88]⟩]⟩ (some exRoot) []

/-- Example version whose difference has one deletion range covering 5
bytes and one insertion record carrying 3 bytes. -/
def vCounts : Version :=
  .mk 4 DEFAULT_VERSION_NAME "t4" ⟨[⟨0, 5⟩], [⟨0, [9, 9, 9]⟩]⟩ none []

/-- Persisted rows whose only row has a parent id that resolves to no
row: loading panics at `map[bid]`. -/
def badRows : List VRow :=
  [⟨1, some 2, "a", "t"⟩]

/-! Helper lemmas about the patch applier. -/

theorem insAt_nil (pos : Nat) : insAt [] pos = [] := rfl

theorem insAt_single (p : Nat) (W : List Nat) (i : Nat) :
    insAt [⟨p, W⟩] i = if p = i then W else [] := by
  by_cases h : p = i <;> simp [insAt, h]

theorem insAt_single_empty (p i : Nat) :
    insAt [⟨p, []⟩] i = [] := by
  rw [insAt_single]
  split <;> rfl

theorem isDeleted_nil (pos : Nat) : isDeleted [] pos = false := rfl

theorem isDeleted_single (a b i : Nat) :
    isDeleted [⟨a, b⟩] i = (decide (a ≤ i) && decide (i < b)) := by
  simp [isDeleted]

theorem isDeleted_single_eq_false (a b i : Nat) (h : i < a ∨ b ≤ i) :
    isDeleted [⟨a, b⟩] i = false := by
  rw [isDeleted_single]
  rcases h with h | h
  · have hna : ¬ a ≤ i := by omega
    simp [hna]
  · have hnb : ¬ i < b := by omega
    simp [hnb]

theorem isDeleted_single_eq_true (a b i : Nat) (h1 : a ≤ i) (h2 : i < b) :
    isDeleted [⟨a, b⟩] i = true := by
  rw [isDeleted_single]
  simp [h1, h2]

theorem insAt_single_ne (p i : Nat) (W : List Nat) (h : ¬ p = i) :
    insAt [⟨p, W⟩] i = [] := by
  rw [insAt_single]
  simp [h]

theorem insAt_single_eq (p : Nat) (W : List Nat) :
    insAt [⟨p, W⟩] p = W := by
  rw [insAt_single]
  simp

theorem patchCore_append (dels : List Deletion) (ins : List Insertion)
    (l1 l2 : List Nat) (n : Nat) :
    patchCore dels ins n (l1 ++ l2)
      = patchCore dels ins n l1 ++ patchCore dels ins (n + l1.length) l2 := by
  induction l1 generalizing n with
  | nil => simp [patchCore]
  | cons x xs ih =>
    have harith : n + 1 + xs.length = n + (xs.length + 1) := by omega
    simp [patchCore, ih (n + 1), harith]

theorem patchCore_keep (dels : List Deletion) (ins : List Insertion)
    (l : List Nat) (n : Nat)
    (h : ∀ i, n ≤ i → i < n + l.length →
      isDeleted dels i = false ∧ insAt ins i = []) :
    patchCore dels ins n l = l := by
  induction l generalizing n with
  | nil => rfl
  | cons x xs ih =>
    have h0 := h n (Nat.le_refl n) (by simp)
    have hrest : ∀ i, n + 1 ≤ i → i < n + 1 + xs.length →
        isDeleted dels i = false ∧ insAt ins i = [] := by
      intro i h1 h2
      refine h i (by omega) ?_
      simp only [List.length_cons]
      omega
    simp [patchCore, h0.1, h0.2, ih (n + 1) hrest]

theorem patchCore_drop (dels : List Deletion) (ins : List Insertion)
    (l : List Nat) (n : Nat)
    (h : ∀ i, n ≤ i → i < n + l.length →
      isDeleted dels i = true ∧ insAt ins i = []) :
    patchCore dels ins n l = [] := by
  induction l generalizing n with
  | nil => rfl
  | cons x xs ih =>
    have h0 := h n (Nat.le_refl n) (by simp)
    have hrest : ∀ i, n + 1 ≤ i → i < n + 1 + xs.length →
        isDeleted dels i = true ∧ insAt ins i = [] := by
      intro i h1 h2
      refine h i (by omega) ?_
      simp only [List.length_cons]
      omega
    simp [patchCore, h0.1, h0.2, ih (n + 1) hrest]

theorem patchCore_congr (d1 d2 : List Deletion) (i1 i2 : List Insertion)
    (hdel : ∀ i, isDeleted d1 i = isDeleted d2 i)
    (hins : ∀ i, insAt i1 i = insAt i2 i)
    (l : List Nat) (n : Nat) :
    patchCore d1 i1 n l = patchCore d2 i2 n l := by
  induction l generalizing n with
  | nil => rfl
  | cons x xs ih => simp [patchCore, hdel n, hins n, ih (n + 1)]

theorem patch_congr (base : List Nat) (d1 d2 : Difference)
    (hdel : ∀ i, isDeleted d1.deletions i = isDeleted d2.deletions i)
    (hins : ∀ i, insAt d1.insertions i = insAt d2.insertions i) :
    patch base d1 = patch base d2 := by
  unfold patch
  rw [patchCore_congr d1.deletions d2.deletions d1.insertions d2.insertions
    hdel hins, hins]

theorem patch_nil (base : List Nat) : patch base ⟨[], []⟩ = base := by
  show patchCore [] [] 0 base ++ insAt [] base.length = base
  have hside : ∀ i, 0 ≤ i → i < 0 + base.length →
      isDeleted [] i = false ∧ insAt ([] : List Insertion) i = [] :=
    fun i _ _ => ⟨rfl, rfl⟩
  rw [patchCore_keep _ _ _ _ hside, insAt_nil]
  simp

theorem patch_append_end (base W : List Nat) :
    patch base ⟨[], [⟨base.length, W⟩]⟩ = base ++ W := by
  show patchCore [] [⟨base.length, W⟩] 0 base
      ++ insAt [⟨base.length, W⟩] base.length = base ++ W
  have hside : ∀ i, 0 ≤ i → i < 0 + base.length →
      isDeleted [] i = false ∧ insAt [⟨base.length, W⟩] i = [] := by
    intro i h1 h2
    exact ⟨rfl, insAt_single_ne _ _ _ (by omega)⟩
  rw [patchCore_keep _ _ _ _ hside, insAt_single_eq]

theorem patchCore_split3 (dels : List Deletion) (ins : List Insertion)
    (X Y Z : List Nat) :
    patchCore dels ins 0 (X ++ Y ++ Z)
      = patchCore dels ins 0 X ++ patchCore dels ins X.length Y
        ++ patchCore dels ins (X.length + Y.length) Z := by
  rw [List.append_assoc, patchCore_append, patchCore_append]
  simp [List.append_assoc]

theorem patch_replace (X Y Z W : List Nat) :
    patch (X ++ Y ++ Z)
      ⟨[⟨X.length, X.length + Y.length⟩], [⟨X.length, W⟩]⟩
      = X ++ W ++ Z := by
  show patchCore [⟨X.length, X.length + Y.length⟩] [⟨X.length, W⟩] 0
        (X ++ Y ++ Z)
      ++ insAt [⟨X.length, W⟩] (X ++ Y ++ Z).length = X ++ W ++ Z
  rw [patchCore_split3]
  have hX : patchCore [⟨X.length, X.length + Y.length⟩] [⟨X.length, W⟩]
      0 X = X := by
    apply patchCore_keep
    intro i h1 h2
    simp only [Nat.zero_add] at h2
    exact ⟨isDeleted_single_eq_false _ _ _ (Or.inl h2),
      insAt_single_ne _ _ _ (by omega)⟩
  rw [hX]
  cases Y with
  | cons y ys =>
    have hY : patchCore [⟨X.length, X.length + (y :: ys).length⟩]
        [⟨X.length, W⟩] X.length (y :: ys) = W := by
      have hstep : patchCore [⟨X.length, X.length + (y :: ys).length⟩]
          [⟨X.length, W⟩] X.length (y :: ys)
          = insAt [⟨X.length, W⟩] X.length
            ++ (if isDeleted [⟨X.length, X.length + (y :: ys).length⟩]
                  X.length then [] else [y])
            ++ patchCore [⟨X.length, X.length + (y :: ys).length⟩]
                [⟨X.length, W⟩] (X.length + 1) ys := rfl
      rw [hstep, insAt_single_eq,
        isDeleted_single_eq_true _ _ _ (Nat.le_refl _) (by simp)]
      have hrest : patchCore [⟨X.length, X.length + (y :: ys).length⟩]
          [⟨X.length, W⟩] (X.length + 1) ys = [] := by
        apply patchCore_drop
        intro i hi1 hi2
        refine ⟨isDeleted_single_eq_true _ _ _ (by omega) ?_,
          insAt_single_ne _ _ _ (by omega)⟩
        simp only [List.length_cons]
        omega
      rw [hrest]
      simp
    have hZ : patchCore [⟨X.length, X.length + (y :: ys).length⟩]
        [⟨X.length, W⟩] (X.length + (y :: ys).length) Z = Z := by
      apply patchCore_keep
      intro i hi1 hi2
      have hge : X.length + ys.length + 1 ≤ i := by
        simp only [List.length_cons] at hi1
        omega
      refine ⟨isDeleted_single_eq_false _ _ _ (Or.inr ?_),
        insAt_single_ne _ _ _ (by omega)⟩
      simp only [List.length_cons]
      omega
    have hEnd : insAt [⟨X.length, W⟩] (X ++ y :: ys ++ Z).length = [] := by
      apply insAt_single_ne
      simp only [List.length_append, List.length_cons]
      omega
    rw [hY, hZ, hEnd]
    simp
  | nil =>
    simp only [List.length_nil, Nat.add_zero, List.append_nil]
    have hdel : ∀ i, isDeleted [⟨X.length, X.length⟩] i = false := by
      intro i
      apply isDeleted_single_eq_false
      omega
    have hY : patchCore [⟨X.length, X.length⟩]
        [⟨X.length, W⟩] X.length [] = [] := rfl
    rw [hY]
    cases Z with
    | nil =>
      have hEnd : insAt [⟨X.length, W⟩]
          (X ++ ([] : List Nat)).length = W := by
        have hlen : (X ++ ([] : List Nat)).length = X.length := by simp
        rw [hlen, insAt_single_eq]
      have hZ : patchCore [⟨X.length, X.length⟩]
          [⟨X.length, W⟩] X.length [] = [] := rfl
      rw [hZ, hEnd]
      simp
    | cons z zs =>
      have hZ : patchCore [⟨X.length, X.length⟩]
          [⟨X.length, W⟩] X.length (z :: zs)
          = W ++ z :: zs := by
        have hstep : patchCore [⟨X.length, X.length⟩]
            [⟨X.length, W⟩] X.length (z :: zs)
            = insAt [⟨X.length, W⟩] X.length
              ++ (if isDeleted [⟨X.length, X.length⟩]
                    X.length then [] else [z])
              ++ patchCore [⟨X.length, X.length⟩]
                  [⟨X.length, W⟩] (X.length + 1) zs := rfl
        rw [hstep, insAt_single_eq, hdel X.length]
        have hrest : patchCore [⟨X.length, X.length⟩]
            [⟨X.length, W⟩] (X.length + 1) zs = zs := by
          apply patchCore_keep
          intro i hi1 hi2
          exact ⟨hdel i, insAt_single_ne _ _ _ (by omega)⟩
        rw [hrest]
        simp
      have hEnd : insAt [⟨X.length, W⟩]
          (X ++ z :: zs).length = [] := by
        apply insAt_single_ne
        simp only [List.length_append, List.length_cons]
        omega
      rw [hZ, hEnd]
      simp

/-! Helper lemmas about common prefixes and chunking. -/

theorem commonPrefixLen_le_left [DecidableEq α] (l1 l2 : List α) :
    commonPrefixLen l1 l2 ≤ l1.length := by
  induction l1 generalizing l2 with
  | nil => simp [commonPrefixLen]
  | cons x xs ih =>
    cases l2 with
    | nil => simp [commonPrefixLen]
    | cons y ys =>
      by_cases h : x = y
      · simp only [commonPrefixLen, if_pos h, List.length_cons]
        exact Nat.succ_le_succ (ih ys)
      · simp [commonPrefixLen, h]

theorem commonPrefixLen_le_right [DecidableEq α] (l1 l2 : List α) :
    commonPrefixLen l1 l2 ≤ l2.length := by
  induction l1 generalizing l2 with
  | nil => simp [commonPrefixLen]
  | cons x xs ih =>
    cases l2 with
    | nil => simp [commonPrefixLen]
    | cons y ys =>
      by_cases h : x = y
      · simp only [commonPrefixLen, if_pos h, List.length_cons]
        exact Nat.succ_le_succ (ih ys)
      · simp [commonPrefixLen, h]

theorem take_commonPrefixLen_eq [DecidableEq α] (l1 l2 : List α) :
    l1.take (commonPrefixLen l1 l2) = l2.take (commonPrefixLen l1 l2) := by
  induction l1 generalizing l2 with
  | nil => simp [commonPrefixLen]
  | cons x xs ih =>
    cases l2 with
    | nil => simp [commonPrefixLen]
    | cons y ys =>
      by_cases h : x = y
      · simp only [commonPrefixLen, if_pos h, List.take_succ_cons]
        rw [h, ih ys]
      · simp [commonPrefixLen, h]

theorem drop_commonSuffix_eq [DecidableEq α] (u v : List α) :
    u.drop (u.length - commonPrefixLen u.reverse v.reverse)
      = v.drop (v.length - commonPrefixLen u.reverse v.reverse) := by
  have h := take_commonPrefixLen_eq u.reverse v.reverse
  rw [List.take_reverse, List.take_reverse] at h
  exact List.reverse_injective h

theorem chunksL_nil_iff (c : Nat) (l : List α) :
    chunksL c l = [] ↔ l = [] := by
  cases l with
  | nil => simp [chunksL]
  | cons x xs => simp [chunksL]

theorem flatten_chunksL (c : Nat) :
    ∀ (n : Nat) (l : List α), l.length ≤ n → (chunksL c l).flatten = l := by
  intro n
  induction n with
  | zero =>
    intro l hl
    have : l = [] := by
      cases l with
      | nil => rfl
      | cons x xs => simp at hl
    subst this
    simp [chunksL]
  | succ n ih =>
    intro l hl
    cases l with
    | nil => simp [chunksL]
    | cons x xs =>
      rw [chunksL]
      simp only [List.flatten_cons]
      rw [ih (xs.drop (c - 1)) (by simp at hl ⊢; omega)]
      simp [List.cons_append, List.take_append_drop]

theorem mem_chunksL_ne_nil (c : Nat) :
    ∀ (n : Nat) (l : List α), l.length ≤ n →
      ∀ ch ∈ chunksL c l, ch ≠ [] := by
  intro n
  induction n with
  | zero =>
    intro l hl ch hch
    cases l with
    | nil => simp [chunksL] at hch
    | cons x xs => simp at hl
  | succ n ih =>
    intro l hl ch hch
    cases l with
    | nil => simp [chunksL] at hch
    | cons x xs =>
      rw [chunksL] at hch
      rcases List.mem_cons.mp hch with h | h
      · subst h
        simp
      · exact ih (xs.drop (c - 1)) (by simp at hl ⊢; omega) ch h

theorem flatten_take_chunksL (c : Nat) (hc : 1 ≤ c) :
    ∀ (n : Nat) (l : List α) (p : Nat), l.length ≤ n →
      p < (chunksL c l).length →
      ((chunksL c l).take p).flatten.length = p * c := by
  intro n
  induction n with
  | zero =>
    intro l p hl hp
    cases l with
    | nil => simp [chunksL] at hp
    | cons x xs => simp at hl
  | succ n ih =>
    intro l p hl hp
    cases l with
    | nil => simp [chunksL] at hp
    | cons x xs =>
      cases p with
      | zero => simp
      | succ q =>
        rw [chunksL] at hp ⊢
        simp only [List.length_cons, Nat.succ_lt_succ_iff] at hp
        simp only [List.take_succ_cons, List.flatten_cons,
          List.length_append, List.length_cons]
        have hrest := ih (xs.drop (c - 1)) q (by simp at hl ⊢; omega) hp
        rw [hrest]
        have hne : xs.drop (c - 1) ≠ [] := by
          intro hcon
          rw [hcon] at hp
          simp [chunksL] at hp
        have hxs : c - 1 ≤ xs.length := by
          by_contra hcon
          apply hne
          apply List.drop_eq_nil_of_le
          omega
        have htk : (xs.take (c - 1)).length = c - 1 := by
          rw [List.length_take]
          omega
        rw [htk]
        have hmul : (q + 1) * c = q * c + c := by ring
        omega

theorem flatten_take_chunksL_apply (c : Nat) (hc : 1 ≤ c) (l : List α)
    (p : Nat) (hp : p < (chunksL c l).length) :
    ((chunksL c l).take p).flatten.length = p * c :=
  flatten_take_chunksL c hc l.length l p (Nat.le_refl _) hp

theorem commitDiff_roundtrip_aux (c : Nat) (hc : 1 ≤ c) (A B : List Nat) :
    patch A
      { deletions :=
          ((seqDiff (chunksL c A) (chunksL c B)).1).map (fun d =>
            ⟨d.start * c,
             d.start * c + (((chunksL c A).drop d.start).take
               (d.stop - d.start)).flatten.length⟩)
        insertions :=
          ((seqDiff (chunksL c A) (chunksL c B)).2).map (fun i =>
            ⟨i.1 * c, i.2.flatten⟩) }
      = B := by
  have hAflat : (chunksL c A).flatten = A :=
    flatten_chunksL c A.length A (Nat.le_refl _)
  have hBflat : (chunksL c B).flatten = B :=
    flatten_chunksL c B.length B (Nat.le_refl _)
  simp only [seqDiff]
  set oc := chunksL c A with hoc
  set nc := chunksL c B with hnc
  set p := commonPrefixLen oc nc with hpdef
  set s := commonPrefixLen (oc.drop p).reverse (nc.drop p).reverse with hsdef
  set m := (oc.drop p).length - s with hmdef
  set Mi := (nc.drop p).take ((nc.drop p).length - s) with hMidef
  set M := (oc.drop p).take m with hMdef
  set S := (oc.drop p).drop m with hSdef
  set Sv := (nc.drop p).drop ((nc.drop p).length - s) with hSvdef
  have hple : p ≤ oc.length := commonPrefixLen_le_left oc nc
  have hple2 : p ≤ nc.length := commonPrefixLen_le_right oc nc
  have hpre : oc.take p = nc.take p := take_commonPrefixLen_eq oc nc
  have hsuf : S = Sv := by
    rw [hSdef, hSvdef, hmdef]
    exact drop_commonSuffix_eq (oc.drop p) (nc.drop p)
  have hdecA : oc = oc.take p ++ (M ++ S) := by
    rw [hMdef, hSdef, List.take_append_drop, List.take_append_drop]
  have hdecB : nc = nc.take p ++ (Mi ++ Sv) := by
    rw [hMidef, hSvdef, List.take_append_drop, List.take_append_drop]
  have hXA : A = (oc.take p).flatten ++ M.flatten ++ S.flatten := by
    conv_lhs => rw [← hAflat]
    conv_lhs => rw [hdecA]
    simp [List.flatten_append, List.append_assoc]
  have hXB : B = (oc.take p).flatten ++ Mi.flatten ++ S.flatten := by
    conv_lhs => rw [← hBflat]
    conv_lhs => rw [hdecB]
    rw [← hpre, ← hsuf]
    simp [List.flatten_append, List.append_assoc]
  by_cases hm : m = 0
  · have hMnil : M = [] := by rw [hMdef, hm, List.take_zero]
    have hY0 : M.flatten.length = 0 := by rw [hMnil]; rfl
    rw [if_pos hm]
    by_cases hmi : Mi = []
    · rw [if_pos hmi]
      simp only [List.map_nil]
      rw [patch_nil]
      rw [hMnil] at hXA
      rw [hmi] at hXB
      simp only [List.flatten_nil, List.append_nil] at hXA hXB
      exact hXA.trans hXB.symm
    · have hvne : nc.drop p ≠ [] := by
        intro hcon
        apply hmi
        rw [hMidef, hcon, List.take_nil]
      have hplt2 : p < nc.length := by
        by_contra hcon
        exact hvne (List.drop_eq_nil_of_le (by omega))
      have hXlen : ((oc.take p).flatten).length = p * c := by
        rw [hpre]
        exact flatten_take_chunksL_apply c hc B p (by rw [← hnc]; exact hplt2)
      rw [if_neg hmi]
      simp only [List.map_nil, List.map_cons]
      rw [← hXlen]
      have hcong : ∀ i, isDeleted ([] : List Deletion) i
          = isDeleted [⟨((oc.take p).flatten).length,
              ((oc.take p).flatten).length + M.flatten.length⟩] i := by
        intro i
        rw [isDeleted_nil, isDeleted_single_eq_false _ _ _ (by omega)]
      rw [patch_congr A
        ⟨[], [⟨((oc.take p).flatten).length, Mi.flatten⟩]⟩
        ⟨[⟨((oc.take p).flatten).length,
            ((oc.take p).flatten).length + M.flatten.length⟩],
          [⟨((oc.take p).flatten).length, Mi.flatten⟩]⟩
        hcong (fun i => rfl)]
      conv_lhs => rw [hXA]
      rw [patch_replace]
      exact hXB.symm
  · have hune : oc.drop p ≠ [] := by
      intro hcon
      apply hm
      rw [hmdef, hcon]
      simp
    have hplt : p < oc.length := by
      by_contra hcon
      exact hune (List.drop_eq_nil_of_le (by omega))
    have hXlen : ((oc.take p).flatten).length = p * c :=
      flatten_take_chunksL_apply c hc A p (by rw [← hoc]; exact hplt)
    rw [if_neg hm]
    simp only [List.map_cons, List.map_nil, Nat.add_sub_cancel_left]
    rw [← hMdef]
    by_cases hmi : Mi = []
    · rw [if_pos hmi]
      simp only [List.map_nil]
      rw [← hXlen]
      have hW0 : Mi.flatten = [] := by rw [hmi]; rfl
      have hcong : ∀ i, insAt ([] : List Insertion) i
          = insAt [⟨((oc.take p).flatten).length, Mi.flatten⟩] i := by
        intro i
        rw [insAt_nil, insAt_single, hW0]
        split <;> rfl
      rw [patch_congr A
        ⟨[⟨((oc.take p).flatten).length,
            ((oc.take p).flatten).length + M.flatten.length⟩], []⟩
        ⟨[⟨((oc.take p).flatten).length,
            ((oc.take p).flatten).length + M.flatten.length⟩],
          [⟨((oc.take p).flatten).length, Mi.flatten⟩]⟩
        (fun i => rfl) hcong]
      conv_lhs => rw [hXA]
      rw [patch_replace]
      exact hXB.symm
    · rw [if_neg hmi]
      simp only [List.map_cons, List.map_nil]
      rw [← hXlen]
      conv_lhs => rw [hXA]
      rw [patch_replace]
      exact hXB.symm

theorem patch_commitDiff_aux (A B : List Nat) :
    patch A (commitDiff A B) = B := by
  have h := commitDiff_roundtrip_aux (chunkSize A.length B.length)
    (Nat.le_max_right _ _) A B
  exact h

/-- C1: for every pair of byte buffers `A` and `B`, applying to `A` the
edit script obtained by diffing `B` against `A` exactly as
`Version::commit` computes it (chunked sequence diff expanded back to byte
coordinates) reproduces `B`: `patch(A, diff(B, A)) = B`. -/
theorem patch_commitDiff_roundtrip (A B : List Nat) :
    patch A (commitDiff A B) = B :=
  patch_commitDiff_aux A B

/-- C2: `Version::data` computes exactly the recursive content function of
the spec, `content(root) = []` and
`content(r) = patch(content(parent(r)), delta(r))`; it recomputes the
chain on every call, with no cache. -/
theorem data_eq_contentSpec (v : Version) :
    Version.data v = contentSpec v := by
  match v with
  | .mk i n d df none cs => rfl
  | .mk i n d df (some b) cs =>
    show patch (Version.data b) df = patch (contentSpec b) df
    rw [data_eq_contentSpec b]

/-- C10: the accessors `Version::deletions` and `Version::insertions`
return the number of entries of the stored edit script (deletion ranges
and insertion records), not byte totals; on `vCounts` the entry counts are
1 and 1 while the byte totals are 5 and 3. -/
theorem deletions_insertions_count_entries :
    (∀ v : Version, Version.deletions v = v.difference.deletions.length
      ∧ Version.insertions v = v.difference.insertions.length)
    ∧ Version.deletions vCounts = 1
    ∧ Version.insertions vCounts = 1
    ∧ deletedByteCount vCounts.difference = 5
    ∧ insertedByteCount vCounts.difference = 3
    ∧ Version.deletions vCounts ≠ deletedByteCount vCounts.difference
    ∧ Version.insertions vCounts ≠ insertedByteCount vCounts.difference := by
  refine ⟨fun v => ⟨rfl, rfl⟩, ?_, ?_, ?_, ?_, ?_, ?_⟩ <;> decide

/-- C3: a successful `Version::commit` on node `v` reads the tracked-file
bytes, computes the delta `commitDiff v.data bytes` from the reconstructed
content of `v` to those bytes, persists the version row (parented to `v`)
and its delta rows, and attaches a new leaf child of `v` whose
reconstructed content equals the tracked-file bytes; in particular,
committing bytes `D` from the root of a fresh tree yields a child with
`data() = D`. -/
theorem commit_success_attaches_correct_child (v : Version) (db : Db)
    (bytes : List Nat) (date : String) :
    (Version.commit v db ⟨true, some bytes, none, none, date⟩).err = none
    ∧ (Version.commit v db ⟨true, some bytes, none, none, date⟩).attached
        = some (Version.mk db.nextId DEFAULT_VERSION_NAME date
            (commitDiff v.data bytes) (some v) [])
    ∧ (Version.mk db.nextId DEFAULT_VERSION_NAME date
          (commitDiff v.data bytes) (some v) []).data = bytes
    ∧ (Version.commit v db ⟨true, some bytes, none, none, date⟩).db.versions
        = db.versions ++ [⟨db.nextId, some v.id, DEFAULT_VERSION_NAME, date⟩]
    ∧ (Version.commit v db ⟨true, some bytes, none, none, date⟩).db.deletions
        = db.deletions ++ (commitDiff v.data bytes).deletions.map
            (fun x => (db.nextId, x.start, x.stop))
    ∧ (Version.commit v db ⟨true, some bytes, none, none, date⟩).db.insertions
        = db.insertions ++ (commitDiff v.data bytes).insertions.map
            (fun x => (db.nextId, x.start, x.data)) := by
  refine ⟨rfl, rfl, ?_, rfl, rfl, rfl⟩
  show patch (Version.data v) (commitDiff (Version.data v) bytes) = bytes
  exact patch_commitDiff_aux (Version.data v) bytes

/-- C4 counterexample: a concrete `Version::commit` run in which the
version-row INSERT succeeds and the tracked-file read then fails.  The
call returns the error and attaches nothing, yet the repository is left
holding the freshly inserted version row — a dangling persisted row, so
the persisted insert, the delta-row inserts and the in-memory attach are
not one logical unit of work. -/
theorem commit_read_failure_leaves_dangling_row :
    (Version.commit exRoot db0 envReadFail).err = some CommitErr.fileErr
    ∧ (Version.commit exRoot db0 envReadFail).attached = none
    ∧ (Version.commit exRoot db0 envReadFail).db.versions
        = db0.versions ++ [⟨1, some 0, DEFAULT_VERSION_NAME, "t1"⟩]
    ∧ (Version.commit exRoot db0 envReadFail).db.versions ≠ db0.versions := by
  refine ⟨rfl, rfl, rfl, ?_⟩
  decide

/-- C4 amended: whenever `Version::commit` returns an error, the in-memory
tree is untouched (no child is attached); but the persisted steps that had
already completed remain in the repository, so commit is not atomic across
its persistence steps. -/
theorem commit_failure_attaches_nothing (v : Version) (db : Db)
    (env : CommitEnv)
    (h : (Version.commit v db env).err.isSome = true) :
    (Version.commit v db env).attached = none := by
  unfold Version.commit at h ⊢
  split at h
  case isTrue hcond =>
    rw [if_pos hcond]
  case isFalse hcond =>
    rw [if_neg hcond]
    cases hfb : env.fileBytes with
    | none =>
      simp only [hfb]
    | some bytes =>
      simp only [hfb] at h ⊢
      split at h
      case isTrue hcond2 =>
        rw [if_pos hcond2]
      case isFalse hcond2 =>
        rw [if_neg hcond2]
        simp at h

/-- Witness for the amended C4 theorem at a concrete failing commit. -/
theorem commit_failure_attaches_nothing_witness :
    (Version.commit exRoot db0 envReadFail).err.isSome = true
    ∧ (Version.commit exRoot db0 envReadFail).attached = none :=
  ⟨rfl, commit_failure_attaches_nothing exRoot db0 envReadFail rfl⟩

/-- C7: `Version::rollback` truncates the tracked file and then issues a
single `write` call, ignoring the count of bytes actually written (it
does not use `write_all`).  The claim that after a successful rollback the
file contains exactly `content(node)` is the evident intent, but the code
cannot guarantee it: with `content(vX) = "X"` and a write that accepts 0
bytes, rollback still returns Ok while the file is left empty.  With a
complete write the file does contain exactly the content. -/
theorem rollback_short_write_breaks_claim :
    Version.data vX = [88]
    ∧ Version.rollback (Version.data vX) 0 = ⟨true, []⟩
    ∧ Version.rollback (Version.data vX) 1 = ⟨true, [88]⟩
    ∧ ([] : List Nat) ≠ [88] := by
  refine ⟨?_, ?_, ?_, ?_⟩ <;> decide

/-- C8: `Version::rename` issues the UPDATE statement first and mutates
the in-memory name only afterwards; if the UPDATE fails the error is
returned and the in-memory name is unchanged, and on success both the
persisted and the in-memory name equal the new name. -/
theorem rename_persists_before_memory (st : NameState) (n : String) :
    Version.rename false n st = (st, some DbErr.updateFailed)
    ∧ (Version.rename false n st).1.memName = st.memName
    ∧ Version.rename true n st = (⟨n, n⟩, none) :=
  ⟨rfl, rfl, rfl⟩

/-- C9 counterexample: loading a tree whose only persisted row points to a
nonexistent parent id produces no value — modelling the `map[bid]` panic
of `Version::new` — instead of a typed failure; likewise an empty row set
(no root row) panics at `root.upgrade().unwrap()`. -/
theorem load_dangling_parent_no_value :
    loadTree badRows = none ∧ loadTree [] = none ∧ badRows ≠ [] := by
  refine ⟨?_, ?_, ?_⟩ <;> decide

/-- C9 amended: the tree-load path of `Version::new` yields no value
(a panic, not a typed failure) exactly when some parent back-reference is
unresolvable or no row has a null parent id; typed failures are surfaced
only for SQL and IO errors, not for these data-validity problems. -/
theorem loadTree_none_iff (rows : List VRow) :
    loadTree rows = none
      ↔ (parentsResolve rows = false ∨ hasRootRow rows = false) := by
  unfold loadTree parentsResolve hasRootRow
  by_cases hres : (rows.all (fun r =>
      match r.bid with
      | none => true
      | some b => rows.any (fun q => q.id = b))) = true
  · rw [if_pos hres, hres]
    rw [Option.map_eq_none', List.getLast?_eq_none_iff, List.filter_eq_nil_iff]
    rw [← List.any_eq_false]
    simp
  · rw [if_neg hres]
    simp only [Bool.not_eq_true] at hres
    rw [hres]
    simp

/-! Helper lemmas about delete traces. -/

theorem interleave_sublist_left {a b out : List Ev}
    (h : Interleave a b out) : a.Sublist out := by
  induction h with
  | nil => exact List.Sublist.slnil
  | left h ih => exact List.Sublist.cons₂ _ ih
  | right h ih => exact List.Sublist.cons _ ih

theorem interleave_sublist_right {a b out : List Ev}
    (h : Interleave a b out) : b.Sublist out := by
  induction h with
  | nil => exact List.Sublist.slnil
  | left h ih => exact List.Sublist.cons _ ih
  | right h ih => exact List.Sublist.cons₂ _ ih

theorem interleave_mem {a b out : List Ev} (h : Interleave a b out) :
    ∀ e ∈ out, e ∈ a ∨ e ∈ b := by
  induction h with
  | nil => intro e he; cases he
  | left h ih =>
    intro e he
    rcases List.mem_cons.mp he with he | he
    · exact Or.inl (he ▸ List.mem_cons_self _ _)
    · rcases ih e he with hm | hm
      · exact Or.inl (List.mem_cons_of_mem _ hm)
      · exact Or.inr hm
  | right h ih =>
    intro e he
    rcases List.mem_cons.mp he with he | he
    · exact Or.inr (he ▸ List.mem_cons_self _ _)
    · rcases ih e he with hm | hm
      · exact Or.inl hm
      · exact Or.inr (List.mem_cons_of_mem _ hm)

theorem interleave_nil_left (l : List Ev) : Interleave [] l l := by
  induction l with
  | nil => exact .nil
  | cons x xs ih => exact .right ih

theorem interleave_nil_right (l : List Ev) : Interleave l [] l := by
  induction l with
  | nil => exact .nil
  | cons x xs ih => exact .left ih

theorem subtreeIds_eq (v : Version) :
    subtreeIds v = v.id :: subtreeIdsL v.children := by
  cases v
  rfl

theorem belowPairs_eq (v : Version) :
    belowPairs v = (subtreeIdsL v.children).map (fun d => (d, v.id))
      ++ belowPairsL v.children := by
  cases v
  rfl

theorem mem_subtreeIdsL (cs : List Version) (j : Nat) :
    j ∈ subtreeIdsL cs ↔ ∃ u ∈ cs, j ∈ subtreeIds u := by
  induction cs with
  | nil => simp [subtreeIdsL]
  | cons u us ih => simp [subtreeIdsL, ih]

theorem mem_belowPairsL (cs : List Version) (pr : Nat × Nat) :
    pr ∈ belowPairsL cs ↔ ∃ u ∈ cs, pr ∈ belowPairs u := by
  induction cs with
  | nil => simp [belowPairsL]
  | cons u us ih => simp [belowPairsL, ih]

theorem sublist_before_ver (x : Ev) (idv : Nat) (pre rest : List Ev)
    (h : [x].Sublist pre) :
    [x, Ev.delVer idv].Sublist (pre ++ Ev.delVer idv :: rest) := by
  have h1 : ([x] ++ [Ev.delVer idv]).Sublist (pre ++ [Ev.delVer idv]) :=
    List.Sublist.append h (List.Sublist.refl _)
  have h2 : ((pre ++ [Ev.delVer idv]) ++ rest).Sublist
      ((pre ++ [Ev.delVer idv]) ++ rest) := List.Sublist.refl _
  have h3 := h1.trans (List.sublist_append_left (pre ++ [Ev.delVer idv]) rest)
  rw [List.append_cons pre (Ev.delVer idv) rest]
  exact h3

theorem forestTr_order (vs : List Version) (tr : List Ev)
    (h : ForestTr vs tr) :
    (∀ v ∈ vs, ∀ j ∈ subtreeIds v,
        [Ev.delDels j, Ev.delVer j].Sublist tr
      ∧ [Ev.delIns j, Ev.delVer j].Sublist tr
      ∧ Ev.delVer j ∈ tr)
    ∧ (∀ v ∈ vs, ∀ pr ∈ belowPairs v,
        [Ev.delVer pr.1, Ev.delVer pr.2].Sublist tr)
    ∧ (∀ i : Nat, Ev.detach i ∉ tr) := by
  induction h with
  | nil =>
    refine ⟨?_, ?_, ?_⟩
    · intro v hv; cases hv
    · intro v hv; cases hv
    · intro i hi; cases hi
  | @cons v vs tc ab pre rest hch hab hpre hrest ihch ihrest =>
    have htc_pre : tc.Sublist pre :=
      (interleave_sublist_left hab).trans (interleave_sublist_left hpre)
    have hdD_pre : [Ev.delDels v.id].Sublist pre :=
      (interleave_sublist_right hab).trans (interleave_sublist_left hpre)
    have hdI_pre : [Ev.delIns v.id].Sublist pre :=
      interleave_sublist_right hpre
    have hpre_tr : pre.Sublist (pre ++ Ev.delVer v.id :: rest) :=
      List.sublist_append_left pre (Ev.delVer v.id :: rest)
    have htc_tr : tc.Sublist (pre ++ Ev.delVer v.id :: rest) :=
      htc_pre.trans hpre_tr
    have hrest_tr : rest.Sublist (pre ++ Ev.delVer v.id :: rest) :=
      (List.Sublist.cons _ (List.Sublist.refl rest)).trans
        (List.sublist_append_right pre (Ev.delVer v.id :: rest))
    have hver_mem : Ev.delVer v.id ∈ pre ++ Ev.delVer v.id :: rest := by
      simp
    refine ⟨?_, ?_, ?_⟩
    · intro w hw j hj
      rcases List.mem_cons.mp hw with hw | hw
      · subst hw
        rw [subtreeIds_eq] at hj
        rcases List.mem_cons.mp hj with hj | hj
        · subst hj
          exact ⟨sublist_before_ver _ _ _ _ hdD_pre,
            sublist_before_ver _ _ _ _ hdI_pre, hver_mem⟩
        · obtain ⟨u, hu, hju⟩ := (mem_subtreeIdsL _ _).mp hj
          obtain ⟨h1, h2, h3⟩ := ihch.1 u hu j hju
          exact ⟨h1.trans htc_tr, h2.trans htc_tr, htc_tr.subset h3⟩
      · obtain ⟨h1, h2, h3⟩ := ihrest.1 w hw j hj
        exact ⟨h1.trans hrest_tr, h2.trans hrest_tr, hrest_tr.subset h3⟩
    · intro w hw pr hpr
      rcases List.mem_cons.mp hw with hw | hw
      · subst hw
        rw [belowPairs_eq] at hpr
        rcases List.mem_append.mp hpr with hpr | hpr
        · obtain ⟨d, hd, hdeq⟩ := List.mem_map.mp hpr
          obtain ⟨u, hu, hdu⟩ := (mem_subtreeIdsL _ _).mp hd
          have hdmem : Ev.delVer d ∈ tc := (ihch.1 u hu d hdu).2.2
          have hdsub : [Ev.delVer d].Sublist pre :=
            (List.singleton_sublist.mpr hdmem).trans htc_pre
          rw [← hdeq]
          exact sublist_before_ver (Ev.delVer d) _ pre rest hdsub
        · obtain ⟨u, hu, hpru⟩ := (mem_belowPairsL _ _).mp hpr
          exact (ihch.2.1 u hu pr hpru).trans htc_tr
      · exact (ihrest.2.1 w hw pr hpr).trans hrest_tr
    · intro i hi
      rcases List.mem_append.mp hi with hi | hi
      · rcases interleave_mem hpre _ hi with hi2 | hi2
        · rcases interleave_mem hab _ hi2 with hi3 | hi3
          · exact ihch.2.2 i hi3
          · simp at hi3
        · simp at hi2
      · rcases List.mem_cons.mp hi with hi2 | hi2
        · cases hi2
        · exact ihrest.2.2 i hi2

theorem forestTr_exRoot_tr1 : ForestTr [exRoot] tr1 := by
  have h0 : ForestTr (Version.children exRoot) [] := ForestTr.nil
  have h1 : Interleave [] [Ev.delDels (Version.id exRoot)]
      [Ev.delDels 0] := interleave_nil_left _
  have h2 : Interleave [Ev.delDels 0] [Ev.delIns (Version.id exRoot)]
      [Ev.delDels 0, Ev.delIns 0] :=
    Interleave.left (interleave_nil_left _)
  exact ForestTr.cons h0 h1 h2 ForestTr.nil

theorem deleteTr_exRoot_tr1 : DeleteTr exRoot tr1 :=
  forestTr_exRoot_tr1

theorem forestTr_exA_tp0 : ForestTr [exA] tp0 := by
  have hB : ForestTr [exB] [Ev.delDels 2, Ev.delIns 2, Ev.delVer 2] := by
    have h0 : ForestTr (Version.children exB) [] := ForestTr.nil
    have h1 : Interleave [] [Ev.delDels (Version.id exB)]
        [Ev.delDels 2] := interleave_nil_left _
    have h2 : Interleave [Ev.delDels 2] [Ev.delIns (Version.id exB)]
        [Ev.delDels 2, Ev.delIns 2] :=
      Interleave.left (interleave_nil_left _)
    exact ForestTr.cons h0 h1 h2 ForestTr.nil
  have hch : ForestTr (Version.children exA)
      [Ev.delDels 2, Ev.delIns 2, Ev.delVer 2] := hB
  have h1 : Interleave [Ev.delDels 2, Ev.delIns 2, Ev.delVer 2]
      [Ev.delDels (Version.id exA)]
      [Ev.delDels 1, Ev.delDels 2, Ev.delIns 2, Ev.delVer 2] :=
    Interleave.right (interleave_nil_right _)
  have h2 : Interleave [Ev.delDels 1, Ev.delDels 2, Ev.delIns 2, Ev.delVer 2]
      [Ev.delIns (Version.id exA)]
      [Ev.delDels 1, Ev.delIns 1, Ev.delDels 2, Ev.delIns 2, Ev.delVer 2] :=
    Interleave.left (Interleave.right (interleave_nil_right _))
  exact ForestTr.cons hch h1 h2 ForestTr.nil

theorem deleteTr_exA_tr0 : DeleteTr exA tr0 := by
  show ∃ tp, ForestTr [exA] tp
      ∧ Interleave [Ev.detach (Version.id exA)] tp tr0
  exact ⟨tp0, forestTr_exA_tp0, Interleave.left (interleave_nil_left _)⟩

/-- C5 counterexample: `Version::delete` on the root is not refused and
does mutate persisted state.  The trace `tr1` is a valid execution of
`delete` on `exRoot` (the detach block is skipped because the root has no
parent, but `delete_private` still runs), it is nonempty, and it deletes
the root's own `versions` row. -/
theorem delete_root_not_refused :
    DeleteTr exRoot tr1
    ∧ tr1 ≠ []
    ∧ Ev.delVer (Version.id exRoot) ∈ tr1 := by
  refine ⟨deleteTr_exRoot_tr1, ?_, ?_⟩ <;> decide

/-- C5 amended: `delete` on the root performs no in-memory detach (the
root stays in the tree, having no parent to be removed from), but it is
not refused either: every execution deletes the persisted `versions` row
of the root and of every node of its subtree. -/
theorem delete_root_keeps_tree_deletes_rows (v : Version) (tr : List Ev)
    (hroot : Version.base v = none) (h : DeleteTr v tr) :
    (∀ i : Nat, Ev.detach i ∉ tr)
    ∧ (∀ j ∈ subtreeIds v, Ev.delVer j ∈ tr) := by
  unfold DeleteTr at h
  rw [hroot] at h
  have horder := forestTr_order [v] tr h
  refine ⟨horder.2.2, ?_⟩
  intro j hj
  exact (horder.1 v (List.mem_cons_self _ _) j hj).2.2

/-- Witness for the amended C5 theorem at the concrete root trace. -/
theorem delete_root_keeps_tree_deletes_rows_witness :
    (∀ i : Nat, Ev.detach i ∉ tr1)
    ∧ (∀ j ∈ subtreeIds exRoot, Ev.delVer j ∈ tr1) :=
  delete_root_keeps_tree_deletes_rows exRoot tr1 rfl deleteTr_exRoot_tr1

/-- C6 counterexample: a valid execution trace of `Version::delete` on the
non-root node `exA` (parent `exRoot`, one child `exB` with id 2) in which
the in-memory detach happens first — before any repository deletion — and
the delta-row DELETEs of `exA` itself run before any row of its descendant
`exB` is deleted.  Both orderings contradict the claimed sequence
(descendants first, then the node's own rows, then the detach). -/
theorem delete_trace_detach_first :
    DeleteTr exA tr0
    ∧ tr0.head? = some (Ev.detach 1)
    ∧ [Ev.delDels 1, Ev.delDels 2].Sublist tr0
    ∧ [Ev.detach 1, Ev.delVer 1].Sublist tr0 := by
  refine ⟨deleteTr_exA_tr0, ?_, ?_, ?_⟩ <;> decide

/-- C6 amended: in every execution of `Version::delete`, each node of the
deleted subtree has its deletions-row and insertions-row DELETEs issued
before its own versions-row DELETE, and every descendant's versions-row
DELETE precedes the versions-row DELETE of each of its ancestors in the
subtree; the node's own delta-row DELETEs run concurrently with the
deletion of its descendants, and the in-memory detach runs concurrently
with all repository deletions, so neither is ordered after the subtree. -/
theorem delete_trace_order_guarantees (v : Version) (tr : List Ev)
    (h : DeleteTr v tr) :
    (∀ j ∈ subtreeIds v,
        [Ev.delDels j, Ev.delVer j].Sublist tr
      ∧ [Ev.delIns j, Ev.delVer j].Sublist tr)
    ∧ (∀ pr ∈ belowPairs v, [Ev.delVer pr.1, Ev.delVer pr.2].Sublist tr) := by
  unfold DeleteTr at h
  cases hb : v.base with
  | none =>
    rw [hb] at h
    have horder := forestTr_order [v] tr h
    refine ⟨?_, ?_⟩
    · intro j hj
      have := horder.1 v (List.mem_cons_self _ _) j hj
      exact ⟨this.1, this.2.1⟩
    · intro pr hpr
      exact horder.2.1 v (List.mem_cons_self _ _) pr hpr
  | some par =>
    rw [hb] at h
    obtain ⟨tp, htp, hint⟩ := h
    have hsub : tp.Sublist tr := interleave_sublist_right hint
    have horder := forestTr_order [v] tp htp
    refine ⟨?_, ?_⟩
    · intro j hj
      have := horder.1 v (List.mem_cons_self _ _) j hj
      exact ⟨this.1.trans hsub, this.2.1.trans hsub⟩
    · intro pr hpr
      exact (horder.2.1 v (List.mem_cons_self _ _) pr hpr).trans hsub

/-- Witness for the amended C6 theorem at the concrete trace `tr0`. -/
theorem delete_trace_order_guarantees_witness :
    (∀ j ∈ subtreeIds exA,
        [Ev.delDels j, Ev.delVer j].Sublist tr0
      ∧ [Ev.delIns j, Ev.delVer j].Sublist tr0)
    ∧ (∀ pr ∈ belowPairs exA,
        [Ev.delVer pr.1, Ev.delVer pr.2].Sublist tr0) :=
  delete_trace_order_guarantees exA tr0 deleteTr_exA_tr0
